import Mathlib

/-!
Verification of the RBI circulars notification bot (src/rbi_bot.py).

The program is a single batch job: it fetches an RSS feed, computes the
delta of new entries against a persisted watermark (the last-sent title),
processes the new entries oldest-first (send title header, fetch the
circular page, summarize, send summary+link), and finally persists the
newest processed title as the new watermark.

The embedding below translates the Python functions into Lean, modelling
the external world (HTTP responses, the summarization service, the
watermark file) as explicit inputs, and the program's observable side
effects (Telegram messages, watermark writes) as an explicit effect list.
A Python exception that escapes a function is modelled as an `Except.error`
or as the `Option String` exception component of a run.
-/

namespace RBIBot

/-- Python ASCII whitespace, as used by `str.strip()` and `textwrap`
(space, tab, newline, carriage return, vertical tab, form feed). -/
def isPyWS (c : Char) : Bool :=
  c = ' ' || c = '\t' || c = '\n' || c = '\r' || c = '\x0b' || c = '\x0c'

/-- Python `s.strip()` on a character list: drop leading and trailing
whitespace. -/
def pyStrip (l : List Char) : List Char :=
  ((l.dropWhile isPyWS).reverse.dropWhile isPyWS).reverse

/-- Python `s.strip()` on strings. -/
def stripStr (s : String) : String := String.mk (pyStrip s.data)

/-- Modelled from the spec: Python stdlib `textwrap.wrap` (called by
`send_message`, its implementation is not part of src/). Helper that scans
characters, accumulating the current word reversed in `cur`, splitting the
text into its maximal whitespace-free words. -/
def splitWordsAux : List Char → List Char → List (List Char)
  | cur, [] => if cur.isEmpty then [] else [cur.reverse]
  | cur, c :: cs =>
    if isPyWS c then
      if cur.isEmpty then splitWordsAux [] cs
      else cur.reverse :: splitWordsAux [] cs
    else splitWordsAux (c :: cur) cs

/-- The whitespace-delimited words of a text. -/
def splitWords (s : List Char) : List (List Char) := splitWordsAux [] s

/-- Length of a line assembled from `line` words separated by single
spaces. -/
def lineLen (line : List (List Char)) : Nat :=
  (line.map List.length).sum + (line.length - 1)

/-- Join words with single spaces. -/
def joinWords : List (List Char) → List Char
  | [] => []
  | [w] => w
  | w :: w2 :: ws => w ++ ' ' :: joinWords (w2 :: ws)

/-- Modelled from the spec: greedy whitespace-aware line filling of
`textwrap.wrap` — keep adding words to the current line while it stays
within `width`, else start a new line. `cur` is the current line's words
reversed, `len` its assembled length. -/
def packAux (width : Nat) : List (List Char) → List (List Char) → Nat → List (List (List Char))
  | [], cur, _ => [cur.reverse]
  | w :: ws, cur, len =>
    if len + 1 + w.length ≤ width then packAux width ws (w :: cur) (len + 1 + w.length)
    else cur.reverse :: packAux width ws [w] w.length

/-- Pack a word sequence into lines of at most `width` characters
(assuming no word itself exceeds `width`). -/
def packLines (width : Nat) : List (List Char) → List (List (List Char))
  | [] => []
  | w :: ws => packAux width ws [w] w.length

/-- Modelled from the spec: `textwrap.wrap(text, width)` — split text
into whitespace-delimited words and fill lines greedily, never splitting
inside a word, dropping surrounding whitespace; an empty or all-whitespace
text yields no chunks. -/
def wrapText (width : Nat) (s : List Char) : List (List Char) :=
  (packLines width (splitWords s)).map joinWords

/-- A parsed feed entry: title and link, as produced by feedparser. -/
structure Entry where
  title : String
  link : String
deriving DecidableEq

/-- An observable side effect of a run: a Telegram message transmission
(one per chunk) or a watermark write. -/
inductive Effect where
  | send (msg : String)
  | save (title : String)
deriving DecidableEq

/-- The circular page, abstracted at the level BeautifulSoup exposes it to
`fetch_full_text`: the text of the primary span `ctl00_Content_Main_lblRelease`
when that element exists, the raw texts of the `p` children of the fallback
panel `ctl00_Content_Main_panelPressRelease` when that element exists, and
the whole page text. -/
structure Page where
  lblRelease : Option String
  panelParas : Option (List String)
  wholeText : String
deriving DecidableEq

/-- The outcome of the HTTP GET inside `fetch_full_text`: either the
request raised a timeout, or a response with a status code and parsed
page arrived. -/
inductive FetchOutcome where
  | timeout
  | response (status : Nat) (page : Page)
deriving DecidableEq

/-- The placeholder `fetch_full_text` returns on a non-200 status. -/
def placeholderFor (status : Nat) : String :=
  "(Could not fetch content; HTTP " ++ toString status ++ ")"

/-- Body extraction of `fetch_full_text` once a 200 response is in hand:
primary span first; else the panel's paragraphs stripped, kept when their
stripped length exceeds 20, joined by blank lines; else the whole text. -/
def extractBody (page : Page) : String :=
  match page.lblRelease with
  | some t => t
  | none =>
    match page.panelParas with
    | some ps =>
        String.intercalate "\n\n" ((ps.map stripStr).filter (fun q => 20 < q.length))
    | none => page.wholeText

/-- `fetch_full_text(url)`: the `requests.get` call is given as a
`FetchOutcome`. A timeout exception is uncaught and propagates
(`Except.error`); a non-200 status yields the placeholder; a 200 status
yields the extracted body. -/
def fetch_full_text : FetchOutcome → Except String String
  | .timeout => .error "requests.exceptions.Timeout"
  | .response status page =>
    if status ≠ 200 then .ok (placeholderFor status)
    else .ok (extractBody page)

/-- The outcome of the hosted summarization call: a summary, or an
exception raised by the client. -/
inductive SummOutcome where
  | ok (summary : String)
  | exn (msg : String)
deriving DecidableEq

/-- `summarize(text)`: returns the model's summary on success; any
exception is caught and converted to the fixed placeholder. -/
def summarize : SummOutcome → String
  | .ok s => s
  | .exn _ => "(summary unavailable)"

/-- `send_message(text)`: wrap the text into chunks of at most 4000
characters and transmit each chunk as one Telegram message, in order. -/
def send_message (text : String) : List Effect :=
  (wrapText 4000 text.data).map (fun c => Effect.send (String.mk c))

/-- `save_last_title(title)`: overwrite the watermark file. -/
def save_last_title (title : String) (_store : Option String) : Option String :=
  some title

/-- `load_last_title()`: read and strip the watermark file's contents, or
return the empty string when the file does not exist. -/
def load_last_title (store : Option String) : String :=
  match store with
  | some contents => stripStr contents
  | none => ""

/-- The delta loop of `main`: walk the feed newest-first, accumulating
entries until one's title equals the stored watermark (that entry
excluded) or the feed is exhausted. -/
def computeNewEntries (lastTitle : String) (entries : List Entry) : List Entry :=
  entries.takeWhile (fun e => e.title != lastTitle)

/-- Processing of one new entry in `main`'s loop: send the bold title
header; fetch the page (a timeout here escapes, aborting with the effects
performed so far); summarize; send the summary plus link message. -/
def processEntry (fetch : String → FetchOutcome) (summ : String → SummOutcome)
    (e : Entry) : List Effect × Option String :=
  match fetch_full_text (fetch e.link) with
  | .error exn => (send_message ("<b>" ++ e.title ++ "</b>"), some exn)
  | .ok fullText =>
    (send_message ("<b>" ++ e.title ++ "</b>") ++
      send_message (summarize (summ fullText) ++
        "\n\n🔗 <a href=\"" ++ e.link ++ "\">Read full circular</a>"),
     none)

/-- The per-entry loop of `main` over the (already reversed, oldest-first)
new entries; an uncaught exception stops the loop, keeping the effects
already performed. -/
def processLoop (fetch : String → FetchOutcome) (summ : String → SummOutcome) :
    List Entry → List Effect × Option String
  | [] => ([], none)
  | e :: rest =>
    match processEntry fetch summ e with
    | (effs, some exn) => (effs, some exn)
    | (effs, none) =>
      let r := processLoop fetch summ rest
      (effs ++ r.1, r.2)

/-- `main()`: abort silently on a non-200 RSS status or an empty feed;
compute the delta; if empty, end with no side effects; otherwise process
the new entries oldest-first and, once the loop completes, save the newest
processed entry's title (`new_entries[0].title`) as the watermark. -/
def mainRun (rssStatus : Nat) (entries : List Entry) (storedTitle : String)
    (fetch : String → FetchOutcome) (summ : String → SummOutcome) :
    List Effect × Option String :=
  if rssStatus ≠ 200 then ([], none)
  else if entries.isEmpty then ([], none)
  else
    match computeNewEntries storedTitle entries with
    | [] => ([], none)
    | e :: rest =>
      match processLoop fetch summ ((e :: rest).reverse) with
      | (effs, some exn) => (effs, some exn)
      | (effs, none) => (effs ++ [Effect.save e.title], none)

/-- Any fetch outcome other than a timeout makes `fetch_full_text` return
normally. -/
theorem fetch_full_text_ok_of_not_timeout (o : FetchOutcome)
    (h : o ≠ FetchOutcome.timeout) : ∃ s, fetch_full_text o = Except.ok s := by
  cases o with
  | timeout => exact absurd rfl h
  | response status page =>
    by_cases hs : status = 200
    · exact ⟨extractBody page, by simp [fetch_full_text, hs]⟩
    · exact ⟨placeholderFor status, by simp [fetch_full_text, hs]⟩

/-- C1 (counterexample): with feed [A,B,C,D] newest-first and stored
watermark equal to B's title, the computed new-items list is not [A,B]:
the delta loop stops at the watermark entry without including it. -/
theorem delta_claim_counterexample :
    ¬ (computeNewEntries "B" [⟨"A", "la"⟩, ⟨"B", "lb"⟩, ⟨"C", "lc"⟩, ⟨"D", "ld"⟩] =
       [⟨"A", "la"⟩, ⟨"B", "lb"⟩]) := by decide

/-- C1 (amended): with feed [A,B,C,D] newest-first and stored watermark
equal to B's title, the computed new-items list is exactly [A] — the
entries strictly newer than the watermark entry, the watermark entry
itself excluded — and the oldest-first processing order is exactly [A]. -/
theorem delta_computation_amended :
    computeNewEntries "B" [⟨"A", "la"⟩, ⟨"B", "lb"⟩, ⟨"C", "lc"⟩, ⟨"D", "ld"⟩] =
      [⟨"A", "la"⟩] ∧
    (computeNewEntries "B" [⟨"A", "la"⟩, ⟨"B", "lb"⟩, ⟨"C", "lc"⟩, ⟨"D", "ld"⟩]).reverse =
      [⟨"A", "la"⟩] := by decide

/-- C2 (counterexample): a timeout of the page fetch is not caught inside
`fetch_full_text`; the exception propagates instead of yielding a
placeholder result. -/
theorem fetch_timeout_uncaught :
    fetch_full_text FetchOutcome.timeout = Except.error "requests.exceptions.Timeout" := rfl

/-- C2 (amended): for every non-success HTTP status `fetch_full_text`
returns the descriptive placeholder embedding the status code without
raising, but a timeout of the fetch is not treated as a failed fetch: the
timeout exception propagates to the caller, never producing a normal
result. -/
theorem fetch_status_placeholder (status : Nat) (page : Page) (h : status ≠ 200) :
    fetch_full_text (FetchOutcome.response status page) = Except.ok (placeholderFor status) ∧
    ∀ s, fetch_full_text FetchOutcome.timeout ≠ Except.ok s := by
  constructor
  · simp [fetch_full_text, h]
  · intro s hs
    simp [fetch_full_text] at hs

/-- Witness for C2's amended theorem at status 404. -/
theorem fetch_status_placeholder_witness :
    (404 ≠ 200) ∧
    (fetch_full_text (FetchOutcome.response 404 ⟨none, none, ""⟩) =
        Except.ok (placeholderFor 404) ∧
      ∀ s, fetch_full_text FetchOutcome.timeout ≠ Except.ok s) :=
  ⟨by decide, fetch_status_placeholder 404 ⟨none, none, ""⟩ (by decide)⟩

/-- C5: on a successfully fetched page, the primary span's text wins
whenever that element is present (the fallback panel is ignored even when
both are present); with no primary span and a fallback panel present, the
result is the stripped texts of exactly those paragraphs whose stripped
length exceeds 20, joined by blank lines. -/
theorem extraction_priority (page : Page) :
    (∀ t, page.lblRelease = some t →
      fetch_full_text (FetchOutcome.response 200 page) = Except.ok t) ∧
    (page.lblRelease = none → ∀ ps, page.panelParas = some ps →
      fetch_full_text (FetchOutcome.response 200 page) =
        Except.ok (String.intercalate "\n\n"
          ((ps.map stripStr).filter (fun q => 20 < q.length)))) := by
  constructor
  · intro t ht
    simp [fetch_full_text, extractBody, ht]
  · intro hnone ps hps
    simp [fetch_full_text, extractBody, hnone, hps]

/-- Witness for C5: a page with both elements present yields the primary
span's text; a page with only the panel yields the long stripped
paragraph. -/
theorem extraction_priority_witness :
    ((⟨some "PRIMARY", some ["a paragraph that is long enough", "tiny"], "whole"⟩ : Page).lblRelease
        = some "PRIMARY" ∧
      fetch_full_text (FetchOutcome.response 200
          ⟨some "PRIMARY", some ["a paragraph that is long enough", "tiny"], "whole"⟩) =
        Except.ok "PRIMARY") ∧
    (fetch_full_text (FetchOutcome.response 200
          ⟨none, some ["  a paragraph that is long enough ", "tiny"], "whole"⟩) =
        Except.ok "a paragraph that is long enough") :=
  ⟨⟨rfl, (extraction_priority _).1 "PRIMARY" rfl⟩,
   ((extraction_priority _).2 rfl _ rfl).trans (congrArg Except.ok (by decide))⟩

/-- C6: `summarize` is total — on an exception from the hosted service it
returns exactly the fixed placeholder, on success the model's summary —
and consequently the per-entry loop never aborts on a summarization
failure: as long as no page fetch times out, the loop completes for every
choice of summarization outcomes. -/
theorem summarize_never_propagates (fetch : String → FetchOutcome)
    (summ : String → SummOutcome) (entries : List Entry)
    (hfetch : ∀ e ∈ entries, fetch e.link ≠ FetchOutcome.timeout) :
    (∀ m, summarize (SummOutcome.exn m) = "(summary unavailable)") ∧
    (∀ s, summarize (SummOutcome.ok s) = s) ∧
    (processLoop fetch summ entries).2 = none := by
  refine ⟨fun m => rfl, fun s => rfl, ?_⟩
  induction entries with
  | nil => rfl
  | cons e rest ih =>
    obtain ⟨s, hs⟩ := fetch_full_text_ok_of_not_timeout (fetch e.link)
      (hfetch e (List.mem_cons_self e rest))
    have ih' := ih (fun x hx => hfetch x (List.mem_cons_of_mem e hx))
    simp [processLoop, processEntry, hs, ih']

/-- Witness for C6: one entry, a successful fetch, and a summarizer that
always raises; the loop still completes. -/
theorem summarize_never_propagates_witness :
    (∀ e ∈ ([⟨"T", "L"⟩] : List Entry),
        (fun _ => FetchOutcome.response 200 ⟨some "body", none, ""⟩) e.link ≠
          FetchOutcome.timeout) ∧
    ((∀ m, summarize (SummOutcome.exn m) = "(summary unavailable)") ∧
      (∀ s, summarize (SummOutcome.ok s) = s) ∧
      (processLoop (fun _ => FetchOutcome.response 200 ⟨some "body", none, ""⟩)
        (fun _ => SummOutcome.exn "boom") [⟨"T", "L"⟩]).2 = none) :=
  ⟨by decide, summarize_never_propagates _ _ _ (by decide)⟩

/-- Every effect produced by `send_message` is a message transmission. -/
theorem send_message_sends (t : String) (x : Effect) (hx : x ∈ send_message t) :
    ∃ m, x = Effect.send m := by
  simp only [send_message] at hx
  rcases List.mem_map.mp hx with ⟨c, _, rfl⟩
  exact ⟨String.mk c, rfl⟩

/-- Every effect produced while processing one entry is a message
transmission. -/
theorem processEntry_sends (fetch : String → FetchOutcome) (summ : String → SummOutcome)
    (e : Entry) (x : Effect) (hx : x ∈ (processEntry fetch summ e).1) :
    ∃ m, x = Effect.send m := by
  rcases hfe : fetch_full_text (fetch e.link) with exn | s
  · simp only [processEntry, hfe] at hx
    exact send_message_sends _ x hx
  · simp only [processEntry, hfe] at hx
    rcases List.mem_append.mp hx with h | h
    · exact send_message_sends _ x h
    · exact send_message_sends _ x h

/-- Every effect produced by the per-entry processing loop is a message
transmission; in particular the loop never writes the watermark. -/
theorem processLoop_sends (fetch : String → FetchOutcome) (summ : String → SummOutcome)
    (entries : List Entry) (x : Effect)
    (hx : x ∈ (processLoop fetch summ entries).1) : ∃ m, x = Effect.send m := by
  induction entries with
  | nil => simp [processLoop] at hx
  | cons e rest ih =>
    rcases hpe : processEntry fetch summ e with ⟨effs, exn?⟩
    cases exn? with
    | some exn =>
      rw [processLoop, hpe] at hx
      exact processEntry_sends fetch summ e x (by rw [hpe]; exact hx)
    | none =>
      rw [processLoop, hpe] at hx
      rcases List.mem_append.mp hx with h | h
      · exact processEntry_sends fetch summ e x (by rw [hpe]; exact h)
      · exact ih h

/-- Shape of `mainRun` on a 200 feed response with a non-empty delta. -/
theorem mainRun_eq_of_new (entries : List Entry) (storedTitle : String)
    (fetch : String → FetchOutcome) (summ : String → SummOutcome)
    (e : Entry) (rest : List Entry)
    (hnew : computeNewEntries storedTitle entries = e :: rest) :
    mainRun 200 entries storedTitle fetch summ =
      match processLoop fetch summ ((e :: rest).reverse) with
      | (effs, some exn) => (effs, some exn)
      | (effs, none) => (effs ++ [Effect.save e.title], none) := by
  have hne : entries.isEmpty = false := by
    cases entries with
    | nil => simp [computeNewEntries] at hnew
    | cons a l => rfl
  simp [mainRun, hne, hnew]

/-- C3: in every run that completes normally with a non-empty delta, the
effect trace consists of message transmissions followed by exactly one
watermark write, whose value is the title of the first (newest, in feed
order) new entry — never a mid-loop value. -/
theorem watermark_saved_once_after_loop (entries : List Entry) (storedTitle : String)
    (fetch : String → FetchOutcome) (summ : String → SummOutcome)
    (e : Entry) (rest : List Entry)
    (hnew : computeNewEntries storedTitle entries = e :: rest)
    (hdone : (mainRun 200 entries storedTitle fetch summ).2 = none) :
    ∃ sends : List Effect,
      (mainRun 200 entries storedTitle fetch summ).1 = sends ++ [Effect.save e.title] ∧
      ∀ x ∈ sends, ∃ m, x = Effect.send m := by
  have hm := mainRun_eq_of_new entries storedTitle fetch summ e rest hnew
  rcases hpl : processLoop fetch summ ((e :: rest).reverse) with ⟨effs, exn?⟩
  rw [hpl] at hm
  cases exn? with
  | some exn => rw [hm] at hdone; simp at hdone
  | none =>
    refine ⟨effs, by rw [hm], fun x hx => ?_⟩
    exact processLoop_sends fetch summ ((e :: rest).reverse) x (by rw [hpl]; exact hx)

/-- Witness for C3: a single new entry produces a trace of sends followed
by one watermark write of that entry's title. -/
theorem watermark_saved_once_witness :
    (computeNewEntries "" [⟨"T", "L"⟩] = [(⟨"T", "L"⟩ : Entry)] ∧
      (mainRun 200 [⟨"T", "L"⟩] ""
        (fun _ => FetchOutcome.response 200 ⟨some "body", none, ""⟩)
        (fun _ => SummOutcome.ok "S")).2 = none) ∧
    ∃ sends : List Effect,
      (mainRun 200 [⟨"T", "L"⟩] ""
          (fun _ => FetchOutcome.response 200 ⟨some "body", none, ""⟩)
          (fun _ => SummOutcome.ok "S")).1 = sends ++ [Effect.save "T"] ∧
      ∀ x ∈ sends, ∃ m, x = Effect.send m :=
  ⟨⟨by decide, by decide⟩,
    watermark_saved_once_after_loop [⟨"T", "L"⟩] "" _ _ ⟨"T", "L"⟩ []
      (by decide) (by decide)⟩

/-- C7: on a first run (empty stored watermark), every entry of a feed
whose titles are all non-empty is treated as new. -/
theorem first_run_all_new (entries : List Entry)
    (h : ∀ e ∈ entries, e.title ≠ "") :
    computeNewEntries "" entries = entries := by
  induction entries with
  | nil => rfl
  | cons e rest ih =>
    have he : (e.title != "") = true := by
      simpa using h e (List.mem_cons_self e rest)
    have ih' := ih (fun x hx => h x (List.mem_cons_of_mem e hx))
    simp only [computeNewEntries] at ih' ⊢
    rw [List.takeWhile_cons, if_pos he, ih']

/-- Witness for C7 on the three-entry feed [A,B,C]. -/
theorem first_run_all_new_witness :
    (∀ e ∈ ([⟨"A", "la"⟩, ⟨"B", "lb"⟩, ⟨"C", "lc"⟩] : List Entry), e.title ≠ "") ∧
    computeNewEntries "" [⟨"A", "la"⟩, ⟨"B", "lb"⟩, ⟨"C", "lc"⟩] =
      [⟨"A", "la"⟩, ⟨"B", "lb"⟩, ⟨"C", "lc"⟩] :=
  ⟨by decide, first_run_all_new _ (by decide)⟩

/-- C8: when the stored watermark equals the feed's newest entry title,
the run produces no effects at all: no message is sent and no watermark
write happens. -/
theorem no_new_items_no_effects (rssStatus : Nat) (e : Entry) (rest : List Entry)
    (storedTitle : String) (fetch : String → FetchOutcome) (summ : String → SummOutcome)
    (h : storedTitle = e.title) :
    mainRun rssStatus (e :: rest) storedTitle fetch summ = ([], none) := by
  have hnew : computeNewEntries storedTitle (e :: rest) = [] := by
    simp [computeNewEntries, List.takeWhile_cons, h]
  by_cases hs : rssStatus = 200
  · simp [mainRun, hs, hnew]
  · simp [mainRun, hs]

/-- Witness for C8: a two-entry feed whose newest title equals the
watermark. -/
theorem no_new_items_no_effects_witness :
    ("A" = (⟨"A", "la"⟩ : Entry).title) ∧
    mainRun 200 [⟨"A", "la"⟩, ⟨"B", "lb"⟩] "A"
      (fun _ => FetchOutcome.timeout) (fun _ => SummOutcome.ok "s") = ([], none) :=
  ⟨rfl, no_new_items_no_effects 200 _ _ _ _ _ rfl⟩

/-- Words produced by the splitter are non-empty and whitespace-free. -/
theorem splitWordsAux_wellformed (cs : List Char) :
    ∀ cur : List Char, (∀ c ∈ cur, isPyWS c = false) →
      ∀ w ∈ splitWordsAux cur cs, w ≠ [] ∧ ∀ c ∈ w, isPyWS c = false := by
  induction cs with
  | nil =>
    intro cur hcur w hw
    rw [splitWordsAux] at hw
    split at hw
    · simp at hw
    · rename_i hc
      simp only [List.mem_singleton] at hw
      subst hw
      refine ⟨?_, fun c hcmem => hcur c (List.mem_reverse.mp hcmem)⟩
      simp only [ne_eq, List.reverse_eq_nil_iff]
      intro h
      rw [h] at hc
      simp at hc
  | cons c cs ih =>
    intro cur hcur w hw
    rw [splitWordsAux] at hw
    split at hw
    · split at hw
      · exact ih [] (by simp) w hw
      · rename_i hws hc
        rcases List.mem_cons.mp hw with rfl | hw
        · refine ⟨?_, fun d hd => hcur d (List.mem_reverse.mp hd)⟩
          simp only [ne_eq, List.reverse_eq_nil_iff]
          intro h
          rw [h] at hc
          simp at hc
        · exact ih [] (by simp) w hw
    · rename_i hws
      refine ih (c :: cur) ?_ w hw
      intro d hd
      rcases List.mem_cons.mp hd with rfl | hd
      · simpa using hws
      · exact hcur d hd

/-- Words of a text are non-empty and whitespace-free. -/
theorem splitWords_wellformed (s : List Char) :
    ∀ w ∈ splitWords s, w ≠ [] ∧ ∀ c ∈ w, isPyWS c = false :=
  splitWordsAux_wellformed s [] (by simp)

/-- The line packer loses and reorders no words. -/
theorem packAux_flatten (width : Nat) (ws : List (List Char)) :
    ∀ cur len, (packAux width ws cur len).flatten = cur.reverse ++ ws := by
  induction ws with
  | nil => intro cur len; simp [packAux]
  | cons w ws ih =>
    intro cur len
    rw [packAux]
    split
    · rw [ih]
      simp
    · simp [ih]

/-- The words of the packed lines, in order, are the input words. -/
theorem packLines_flatten (width : Nat) (ws : List (List Char)) :
    (packLines width ws).flatten = ws := by
  cases ws with
  | nil => rfl
  | cons w ws => rw [packLines, packAux_flatten]; rfl

/-- Assembled line length is invariant under reversing the word list. -/
theorem lineLen_reverse (line : List (List Char)) :
    lineLen line.reverse = lineLen line := by
  simp [lineLen, List.map_reverse, List.sum_reverse]

/-- Lines produced by the packer stay within the width, provided no
single word exceeds it. -/
theorem packAux_lineLen (width : Nat) (ws : List (List Char))
    (hws : ∀ w ∈ ws, w.length ≤ width) :
    ∀ cur len, cur ≠ [] → len = lineLen cur → len ≤ width →
      ∀ line ∈ packAux width ws cur len, lineLen line ≤ width := by
  induction ws with
  | nil =>
    intro cur len _ hl hle line hline
    rw [packAux] at hline
    simp only [List.mem_singleton] at hline
    subst hline
    rw [lineLen_reverse]
    omega
  | cons w ws ih =>
    intro cur len hc hl hle line hline
    rw [packAux] at hline
    split at hline
    · rename_i hcond
      refine ih (fun v hv => hws v (List.mem_cons_of_mem _ hv)) (w :: cur) _
        (by simp) ?_ hcond line hline
      subst hl
      cases cur with
      | nil => exact absurd rfl hc
      | cons a l =>
        simp only [lineLen, List.map_cons, List.sum_cons, List.length_cons]
        omega
    · rename_i hcond
      rcases List.mem_cons.mp hline with rfl | hline
      · rw [lineLen_reverse]; omega
      · refine ih (fun v hv => hws v (List.mem_cons_of_mem _ hv)) [w] w.length
          (by simp) (by simp [lineLen]) (hws w (List.mem_cons_self _ _)) line hline

/-- All packed lines stay within the width, provided no single word
exceeds it. -/
theorem packLines_lineLen (width : Nat) (ws : List (List Char))
    (hws : ∀ w ∈ ws, w.length ≤ width) :
    ∀ line ∈ packLines width ws, lineLen line ≤ width := by
  cases ws with
  | nil => intro line h; simp [packLines] at h
  | cons w ws =>
    intro line h
    exact packAux_lineLen width ws (fun v hv => hws v (List.mem_cons_of_mem _ hv))
      [w] w.length (by simp) (by simp [lineLen]) (hws w (List.mem_cons_self _ _)) line h

/-- The length of an assembled chunk is the line length. -/
theorem joinWords_length (line : List (List Char)) :
    (joinWords line).length = lineLen line := by
  induction line with
  | nil => rfl
  | cons w tail ih =>
    cases tail with
    | nil => simp [joinWords, lineLen]
    | cons w2 ws =>
      rw [joinWords]
      simp only [lineLen, List.map_cons, List.sum_cons, List.length_cons,
        List.length_append] at ih ⊢
      omega

/-- Scanning a whitespace-free word just accumulates its characters. -/
theorem splitWordsAux_append_word (w : List Char) :
    ∀ cur rest, (∀ c ∈ w, isPyWS c = false) →
      splitWordsAux cur (w ++ rest) = splitWordsAux (w.reverse ++ cur) rest := by
  induction w with
  | nil => intro cur rest _; simp
  | cons c w ih =>
    intro cur rest hw
    have hc : isPyWS c = false := hw c (List.mem_cons_self _ _)
    rw [List.cons_append, splitWordsAux, if_neg (by simp [hc])]
    rw [ih (c :: cur) rest (fun d hd => hw d (List.mem_cons_of_mem _ hd))]
    congr 1
    simp

/-- Splitting a line assembled from well-formed words recovers exactly
those words: no chunk boundary can fall inside a word. -/
theorem splitWords_joinWords :
    ∀ line : List (List Char),
      (∀ w ∈ line, w ≠ [] ∧ ∀ c ∈ w, isPyWS c = false) →
      splitWords (joinWords line) = line := by
  intro line
  induction line with
  | nil => intro _; rfl
  | cons w tail ih =>
    intro h
    obtain ⟨hw0, hwc⟩ := h w (List.mem_cons_self _ _)
    have htail := fun v hv => h v (List.mem_cons_of_mem _ hv)
    cases tail with
    | nil =>
      show splitWordsAux [] (joinWords [w]) = [w]
      rw [joinWords]
      calc splitWordsAux [] w
          = splitWordsAux [] (w ++ []) := by rw [List.append_nil]
        _ = splitWordsAux (w.reverse ++ []) [] := splitWordsAux_append_word w [] [] hwc
        _ = [w] := by
            rw [List.append_nil, splitWordsAux,
              if_neg (by simp [List.isEmpty_iff, hw0]), List.reverse_reverse]
    | cons w2 ws =>
      show splitWordsAux [] (joinWords (w :: w2 :: ws)) = w :: w2 :: ws
      rw [joinWords]
      rw [splitWordsAux_append_word w [] (' ' :: joinWords (w2 :: ws)) hwc]
      rw [List.append_nil, splitWordsAux, if_pos (by decide),
        if_neg (by simp [List.isEmpty_iff, hw0]), List.reverse_reverse]
      exact congrArg (w :: ·) (ih htail)

/-- Mapping a function that fixes every member is the identity. -/
theorem map_id_of_mem {α : Type} (l : List α) (f : α → α) (h : ∀ a ∈ l, f a = a) :
    l.map f = l := by
  induction l with
  | nil => rfl
  | cons a t ih =>
    rw [List.map_cons, h a (List.mem_cons_self _ _),
      ih (fun b hb => h b (List.mem_cons_of_mem _ hb))]

/-- C4: for every text none of whose whitespace-delimited words exceeds
the 4000-character chunk limit, the Notifier's split yields chunks of at
most 4000 characters whose word sequences concatenate, in order, to
exactly the original text's word sequence — so no boundary splits a word,
order is preserved, and the content is reconstructed modulo whitespace
normalization. -/
theorem chunking_correct (s : List Char)
    (h : ∀ w ∈ splitWords s, w.length ≤ 4000) :
    (∀ c ∈ wrapText 4000 s, c.length ≤ 4000) ∧
    ((wrapText 4000 s).map splitWords).flatten = splitWords s := by
  constructor
  · intro c hc
    rcases List.mem_map.mp hc with ⟨line, hline, rfl⟩
    rw [joinWords_length]
    exact packLines_lineLen 4000 (splitWords s) h line hline
  · rw [wrapText, List.map_map]
    have h2 : (packLines 4000 (splitWords s)).map (splitWords ∘ joinWords) =
        packLines 4000 (splitWords s) := by
      refine map_id_of_mem _ _ (fun line hline => ?_)
      refine splitWords_joinWords line (fun w hw => ?_)
      refine splitWords_wellformed s w ?_
      rw [← packLines_flatten 4000 (splitWords s)]
      exact List.mem_flatten.mpr ⟨line, hline, hw⟩
    rw [h2, packLines_flatten]

/-- Witness for C4 on a concrete three-word text. -/
theorem chunking_correct_witness :
    (∀ w ∈ splitWords ("alpha beta gamma").data, w.length ≤ 4000) ∧
    ((∀ c ∈ wrapText 4000 ("alpha beta gamma").data, c.length ≤ 4000) ∧
      ((wrapText 4000 ("alpha beta gamma").data).map splitWords).flatten =
        splitWords ("alpha beta gamma").data) :=
  ⟨by decide, chunking_correct _ (by decide)⟩

/-- Scanning an all-whitespace text yields no words. -/
theorem splitWordsAux_all_ws (l : List Char) (h : ∀ c ∈ l, isPyWS c = true) :
    splitWordsAux [] l = [] := by
  induction l with
  | nil => rfl
  | cons c cs ih =>
    rw [splitWordsAux, if_pos (h c (List.mem_cons_self _ _)),
      if_pos (show List.isEmpty [] = true from rfl)]
    exact ih (fun d hd => h d (List.mem_cons_of_mem _ hd))

/-- C10: sending an empty or all-whitespace text produces zero chunks, so
no message at all is transmitted. -/
theorem empty_message_no_chunks (s : String) (h : ∀ c ∈ s.data, isPyWS c = true) :
    send_message s = [] := by
  have hw : splitWords s.data = [] := splitWordsAux_all_ws s.data h
  simp only [send_message, wrapText, hw]
  rfl

/-- Witness for C10 on the empty string and a whitespace-only string. -/
theorem empty_message_no_chunks_witness :
    ((∀ c ∈ ("" : String).data, isPyWS c = true) ∧ send_message "" = []) ∧
    ((∀ c ∈ (" \n  " : String).data, isPyWS c = true) ∧ send_message " \n  " = []) :=
  ⟨⟨by decide, empty_message_no_chunks "" (by decide)⟩,
   ⟨by decide, empty_message_no_chunks " \n  " (by decide)⟩⟩

/-- If dropping leading whitespace changes nothing, the head is not
whitespace. -/
theorem head_not_ws_of_dropWhile_eq (l : List Char) (h : l ≠ [])
    (hd : l.dropWhile isPyWS = l) : isPyWS (l.head h) = false := by
  cases l with
  | nil => exact absurd rfl h
  | cons c cs =>
    by_cases hc : isPyWS c = true
    · rw [List.dropWhile_cons_of_pos hc] at hd
      have hle : (cs.dropWhile isPyWS).length ≤ cs.length :=
        (List.dropWhile_sublist isPyWS).length_le
      have := congrArg List.length hd
      simp at this
      omega
    · simpa using hc

/-- If the head is not whitespace, dropping leading whitespace changes
nothing. -/
theorem dropWhile_eq_of_head_not_ws (l : List Char) (h : l ≠ [])
    (hc : isPyWS (l.head h) = false) : l.dropWhile isPyWS = l := by
  cases l with
  | nil => exact absurd rfl h
  | cons c cs => exact List.dropWhile_cons_of_neg (by simpa using hc)

/-- `pyStrip` fixes a character list exactly when the list has no leading
and no trailing whitespace. -/
theorem pyStrip_eq_self_iff (l : List Char) :
    pyStrip l = l ↔ ∀ h : l ≠ [],
      isPyWS (l.head h) = false ∧ isPyWS (l.getLast h) = false := by
  constructor
  · intro hp
    have hlen : (pyStrip l).length = l.length := congrArg List.length hp
    have h1 : (l.dropWhile isPyWS).length ≤ l.length :=
      (List.dropWhile_sublist isPyWS).length_le
    have h2 : ((l.dropWhile isPyWS).reverse.dropWhile isPyWS).length ≤
        (l.dropWhile isPyWS).reverse.length :=
      (List.dropWhile_sublist isPyWS).length_le
    have hps : (pyStrip l).length =
        ((l.dropWhile isPyWS).reverse.dropWhile isPyWS).length := by
      simp [pyStrip]
    have hrl : (l.dropWhile isPyWS).reverse.length = (l.dropWhile isPyWS).length := by
      simp
    have e1 : l.dropWhile isPyWS = l :=
      (List.dropWhile_sublist isPyWS).eq_of_length (by omega)
    have e2 : (l.dropWhile isPyWS).reverse.dropWhile isPyWS =
        (l.dropWhile isPyWS).reverse :=
      (List.dropWhile_sublist isPyWS).eq_of_length (by omega)
    rw [e1] at e2
    intro h
    refine ⟨head_not_ws_of_dropWhile_eq l h e1, ?_⟩
    have hrev : l.reverse ≠ [] := by simpa using h
    have hh := head_not_ws_of_dropWhile_eq l.reverse hrev e2
    rwa [List.head_reverse] at hh
  · intro hcond
    by_cases h : l = []
    · subst h; rfl
    · obtain ⟨hh, hg⟩ := hcond h
      have hrev : l.reverse ≠ [] := by simpa using h
      have e1 : l.dropWhile isPyWS = l := dropWhile_eq_of_head_not_ws l h hh
      have e2 : l.reverse.dropWhile isPyWS = l.reverse :=
        dropWhile_eq_of_head_not_ws l.reverse hrev (by rw [List.head_reverse]; exact hg)
      simp [pyStrip, e1, e2]

/-- C9: loading right after saving a title returns that title with its
leading and trailing whitespace stripped; the round trip is the identity
exactly when the title has no leading or trailing whitespace — so a feed
title with surrounding whitespace never compares equal to its own stored
watermark. -/
theorem watermark_store_roundtrip (title : String) (store : Option String) :
    load_last_title (save_last_title title store) = stripStr title ∧
    (stripStr title = title ↔
      ∀ h : title.data ≠ [],
        isPyWS (title.data.head h) = false ∧ isPyWS (title.data.getLast h) = false) := by
  refine ⟨rfl, ?_⟩
  have hdata : stripStr title = title ↔ pyStrip title.data = title.data := by
    constructor
    · intro h
      exact congrArg String.data h
    · intro h
      show String.mk (pyStrip title.data) = title
      rw [h]
  rw [hdata]
  exact pyStrip_eq_self_iff title.data

end RBIBot
